import Mathlib

/-!
Verification of the `llist` package: a doubly linked list façade that caches
the chain's head and tail and keeps a map from values to the nodes currently
holding that value.

Modelling choices.  Go pointers to `lnode.Node` values are modelled as natural
number identifiers into an explicit heap (an association list from identifier
to node record).  The `LList` state carries the cached endpoints, the value
index (`nodes` in the source) and the ambient heap of all allocated nodes.
A nil pointer is `Option.none`; operations that would dereference a nil
pointer (or an unallocated identifier) return `Option.none` instead of a
successor state.  The `lnode` primitive is an external dependency of the
repository; its operations are modelled from the spec's contract for the
node primitive (construct, link-after, link-before, unlink, boundary walks,
forward traversal).  Everything in the `LList` façade itself is translated
directly from `llist.go`.
-/

set_option autoImplicit false
set_option linter.unusedSectionVars false
set_option linter.unnecessarySeqFocus false

namespace Llist

/-- A doubly linked node: a value and optional previous/next neighbours,
mirroring `lnode.Node` with `Value`, `Prev`, `Next`. -/
structure LNode (V : Type) where
  value : V
  prev : Option Nat
  next : Option Nat
deriving Repr, DecidableEq

/-- The ambient store of allocated nodes: identifier to node record. -/
abbrev Heap (V : Type) := List (Nat × LNode V)

variable {V : Type} [DecidableEq V]

/-- Look up a node by identifier (pointer dereference). -/
def hfind : Heap V → Nat → Option (LNode V)
  | [], _ => none
  | (j, nd) :: t, i => if j = i then some nd else hfind t i

/-- Update the node stored at an identifier, leaving other nodes alone. -/
def hupd : Heap V → Nat → (LNode V → LNode V) → Heap V
  | [], _, _ => []
  | (j, nd) :: t, i, f => (j, if j = i then f nd else nd) :: hupd t i f

/-- The value index: Go's `map[V][]*lnode.Node[V]` as an association list
from value to bucket.  Keys are unique under construction via `iset`. -/
abbrev Index (V : Type) := List (V × List Nat)

/-- Map lookup `l.nodes[v]`, distinguishing a missing key from an empty
bucket exactly as Go's comma-ok form does. -/
def ifind : Index V → V → Option (List Nat)
  | [], _ => none
  | (w, b) :: t, v => if w = v then some b else ifind t v

/-- Map store `l.nodes[v] = b`: replace the bucket of an existing key, or
add the key when absent. -/
def iset : Index V → V → List Nat → Index V
  | [], v, b => [(v, b)]
  | (w, c) :: t, v, b => if w = v then (v, b) :: t else (w, c) :: iset t v b

/-- Modelled from the spec: the node primitive's link-after operation
(`lnode.Append`).  The new node is wired to the anchor and the anchor's
former successor, which is relinked back when present. -/
def lnAppend (h : Heap V) (a n : Nat) : Heap V :=
  match hfind h a with
  | none => h
  | some an =>
    let h1 := hupd h n (fun nd => { nd with prev := some a, next := an.next })
    let h2 := match an.next with
      | none => h1
      | some nx => hupd h1 nx (fun nd => { nd with prev := some n })
    hupd h2 a (fun nd => { nd with next := some n })

/-- Modelled from the spec: the node primitive's link-before operation
(`lnode.Prepend`), the mirror image of link-after. -/
def lnPrepend (h : Heap V) (a n : Nat) : Heap V :=
  match hfind h a with
  | none => h
  | some an =>
    let h1 := hupd h n (fun nd => { nd with next := some a, prev := an.prev })
    let h2 := match an.prev with
      | none => h1
      | some pv => hupd h1 pv (fun nd => { nd with next := some n })
    hupd h2 a (fun nd => { nd with prev := some n })

/-- Modelled from the spec: the node primitive's unlink operation
(`lnode.Delete`).  Former neighbours are relinked to each other and the
node's own links are cleared, leaving it chain-less. -/
def lnDelete (h : Heap V) (n : Nat) : Heap V :=
  match hfind h n with
  | none => h
  | some nd =>
    let h1 := match nd.prev with
      | none => h
      | some p => hupd h p (fun x => { x with next := nd.next })
    let h2 := match nd.next with
      | none => h1
      | some q => hupd h1 q (fun x => { x with prev := nd.prev })
    hupd h2 n (fun x => { x with prev := none, next := none })

/-- Modelled from the spec: the node primitive's head-ward boundary walk
(`lnode.Head`).  Fuel bounds the walk; exhausted fuel (a circular chain)
yields `none`, matching the documented nil result on circular chains. -/
def walkHead (h : Heap V) : Nat → Nat → Option Nat
  | 0, _ => none
  | fuel + 1, i =>
    match hfind h i with
    | none => none
    | some nd =>
      match nd.prev with
      | none => some i
      | some p => walkHead h fuel p

/-- Modelled from the spec: the node primitive's tail-ward boundary walk
(`lnode.Tail`). -/
def walkTail (h : Heap V) : Nat → Nat → Option Nat
  | 0, _ => none
  | fuel + 1, i =>
    match hfind h i with
    | none => none
    | some nd =>
      match nd.next with
      | none => some i
      | some q => walkTail h fuel q

/-- Modelled from the spec: the node primitive's forward traversal
(`lnode.VisitByNext`) collecting the visited nodes in order.  Fuel bounds
the traversal; exhausted fuel (a circular chain) yields `none` since the
traversal would not terminate. -/
def chainFrom (h : Heap V) : Nat → Nat → Option (List Nat)
  | 0, _ => none
  | fuel + 1, i =>
    match hfind h i with
    | none => none
    | some nd =>
      match nd.next with
      | none => some [i]
      | some j => (chainFrom h fuel j).map (fun t => i :: t)

/-- The `LList` receiver: cached head and tail, the value index `nodes`,
plus the ambient heap of allocated nodes. -/
structure LList (V : Type) where
  head : Option Nat
  tail : Option Nat
  nodes : Index V
  heap : Heap V
deriving Repr, DecidableEq

/-- `New` constructs an empty list: no head, no tail, empty index. -/
def New (V : Type) : LList V := ⟨none, none, [], []⟩

/-- `Head` returns the cached start of the chain. -/
def Head (l : LList V) : Option Nat := l.head

/-- `Tail` returns the cached end of the chain. -/
def Tail (l : LList V) : Option Nat := l.tail

/-- Helper `addCount`: register a node into the bucket of its current
value, creating the bucket when the key is absent. -/
def addCount (l : LList V) (n : Nat) : LList V :=
  match hfind l.heap n with
  | none => l
  | some nd =>
    let b := (ifind l.nodes nd.value).getD []
    { l with nodes := iset l.nodes nd.value (b ++ [n]) }

/-- Helper `subCount`: rebuild the bucket of the node's current value
without that node; a missing key is left untouched. -/
def subCount (l : LList V) (n : Nat) : LList V :=
  match hfind l.heap n with
  | none => l
  | some nd =>
    match ifind l.nodes nd.value with
    | none => l
    | some nds => { l with nodes := iset l.nodes nd.value (nds.filter (fun x => x ≠ n)) }

/-- `FindNodes` returns the bucket of nodes currently registered under a
value, or the empty sequence when the value is unknown. -/
def FindNodes (l : LList V) (v : V) : List Nat :=
  match ifind l.nodes v with
  | none => []
  | some nds => nds

/-- `Append` inserts node `n` after `anchor`: an empty-headed list is
seeded, an anchor equal to the cached tail advances the tail, otherwise
the node is spliced after the anchor; the node is then registered.
`none` signals the nil dereference Go would hit splicing on a nil anchor. -/
def Append (l : LList V) (anchor : Option Nat) (n : Nat) : Option (LList V) :=
  if l.head = none then
    some (addCount { l with head := some n, tail := some n } n)
  else if anchor = l.tail then
    match l.tail with
    | none => none
    | some t => some (addCount { l with heap := lnAppend l.heap t n, tail := some n } n)
  else
    match anchor with
    | none => none
    | some a => some (addCount { l with heap := lnAppend l.heap a n } n)

/-- `Prepend` inserts node `n` before `anchor`: a list with both cached
endpoints absent is seeded, an anchor equal to the cached head advances the
head, otherwise the node is spliced before the anchor; the node is then
registered.  `none` signals the nil dereference on a nil head or anchor. -/
def Prepend (l : LList V) (anchor : Option Nat) (n : Nat) : Option (LList V) :=
  if l.head = none ∧ l.tail = none then
    some (addCount { l with head := some n, tail := some n } n)
  else if anchor = l.head then
    match l.head with
    | none => none
    | some hd => some (addCount { l with heap := lnPrepend l.heap hd n, head := some n } n)
  else
    match anchor with
    | none => none
    | some a => some (addCount { l with heap := lnPrepend l.heap a n } n)

/-- `Delete` removes a node: the `switch` updates the cached head when the
node is the cached head, otherwise the cached tail when it is the cached
tail (first match only, as in Go); the node is then unlinked and
deregistered.  `none` signals an unallocated identifier, which has no Go
counterpart since every live pointer is allocated. -/
def Delete (l : LList V) (n : Nat) : Option (LList V) :=
  match hfind l.heap n with
  | none => none
  | some nd =>
    let l1 :=
      if l.head = some n then { l with head := nd.next }
      else if l.tail = some n then { l with tail := nd.prev }
      else l
    some (subCount { l1 with heap := lnDelete l1.heap n } n)

/-- `SetValue` deregisters the node from its old value's bucket, mutates
the value, and registers it under the new value. -/
def SetValue (l : LList V) (n : Nat) (v : V) : Option (LList V) :=
  match hfind l.heap n with
  | none => none
  | some _ =>
    let l1 := subCount l n
    let l2 := { l1 with heap := hupd l1.heap n (fun nd => { nd with value := v }) }
    some (addCount l2 n)

/-- `FixHead` recomputes the cached head by the primitive's head-ward walk
from the current cached head.  On a nil cached head the walk is invoked on
a nil node, modelled as failure. -/
def FixHead (l : LList V) : Option (LList V) :=
  match l.head with
  | none => none
  | some hd => some { l with head := walkHead l.heap l.heap.length hd }

/-- `FixTail` recomputes the cached tail by the primitive's tail-ward walk
from the current cached tail.  On a nil cached tail the walk is invoked on
a nil node, modelled as failure. -/
def FixTail (l : LList V) : Option (LList V) :=
  match l.tail with
  | none => none
  | some tl => some { l with tail := walkTail l.heap l.heap.length tl }

/-- `FixCounts` guards the empty list, otherwise discards the index and
re-registers every node of the forward traversal from the cached head.
`none` models the non-terminating traversal of a circular chain. -/
def FixCounts (l : LList V) : Option (LList V) :=
  match l.head with
  | none => some l
  | some hd =>
    match chainFrom l.heap l.heap.length hd with
    | none => none
    | some ids => some (ids.foldl (fun acc n => addCount acc n) { l with nodes := [] })

/-- The chain predicate: `dll h p xs` says the nodes of `xs` are allocated
and doubly linked in order, the first pointing back to `p`, the last
pointing forward to nothing.  `dll h none xs` is the well-formed chain. -/
def dll (h : Heap V) : Option Nat → List Nat → Prop
  | _, [] => True
  | p, x :: xs =>
    (∃ nd, hfind h x = some nd ∧ nd.prev = p ∧ nd.next = xs.head?) ∧ dll h (some x) xs

/-- The value stored at an identifier, the only field `subCount` and
`addCount` read. -/
def valOf (h : Heap V) (m : Nat) : Option V := (hfind h m).map LNode.value

/-- The adjacency stored at an identifier: the chain view of the heap. -/
def linksOf (h : Heap V) (m : Nat) : Option (Option Nat × Option Nat) :=
  (hfind h m).map (fun x => (x.prev, x.next))

end Llist

namespace Llist

variable {V : Type} [DecidableEq V]

theorem hfind_hupd (h : Heap V) (i : Nat) (f : LNode V → LNode V) (j : Nat) :
    hfind (hupd h i f) j = if j = i then (hfind h j).map f else hfind h j := by
  induction h with
  | nil => simp [hfind, hupd]
  | cons p t ih =>
    obtain ⟨k, nd⟩ := p
    by_cases hkj : k = j <;> by_cases hji : j = i <;>
      simp [hfind, hupd, hkj, hji, ih] <;> simp_all

theorem valOf_hupd (h : Heap V) (i : Nat) (f : LNode V → LNode V)
    (hf : ∀ nd, (f nd).value = nd.value) (m : Nat) :
    valOf (hupd h i f) m = valOf h m := by
  unfold valOf
  rw [hfind_hupd]
  split
  · cases hfind h m <;> simp [hf]
  · rfl

theorem valOf_hupd_links (h : Heap V) (i m : Nat) (P N : LNode V → Option Nat) :
    valOf (hupd h i (fun x => { value := x.value, prev := P x, next := N x })) m
      = valOf h m :=
  valOf_hupd h i (fun x => { value := x.value, prev := P x, next := N x }) (fun _ => rfl) m

theorem valOf_lnDelete (h : Heap V) (n m : Nat) :
    valOf (lnDelete h n) m = valOf h m := by
  unfold lnDelete
  cases hfind h n with
  | none => rfl
  | some nd =>
    cases hp : nd.prev <;> cases hq : nd.next <;> simp only [hp, hq] <;>
      simp only [valOf_hupd_links]

theorem linksOf_hupd_value (h : Heap V) (i : Nat) (v : V) (m : Nat) :
    linksOf (hupd h i (fun nd => { nd with value := v })) m = linksOf h m := by
  unfold linksOf
  rw [hfind_hupd]
  split
  · cases hfind h m <;> rfl
  · rfl

theorem ifind_iset_self (m : Index V) (v : V) (b : List Nat) :
    ifind (iset m v b) v = some b := by
  induction m with
  | nil => simp [iset, ifind]
  | cons p t ih =>
    obtain ⟨w, c⟩ := p
    by_cases hwv : w = v <;> simp [iset, ifind, hwv, ih]

theorem ifind_iset_ne (m : Index V) (v u : V) (b : List Nat) (huv : u ≠ v) :
    ifind (iset m v b) u = ifind m u := by
  induction m with
  | nil => simp [iset, ifind, huv, Ne.symm huv]
  | cons p t ih =>
    obtain ⟨w, c⟩ := p
    by_cases hwv : w = v
    · subst hwv
      simp [iset, ifind, Ne.symm huv]
    · by_cases hwu : w = u <;> simp [iset, ifind, hwv, hwu, ih, huv, Ne.symm huv]

theorem addCount_head (l : LList V) (n : Nat) : (addCount l n).head = l.head := by
  unfold addCount; cases hfind l.heap n <;> rfl

theorem addCount_tail (l : LList V) (n : Nat) : (addCount l n).tail = l.tail := by
  unfold addCount; cases hfind l.heap n <;> rfl

theorem subCount_head (l : LList V) (n : Nat) : (subCount l n).head = l.head := by
  unfold subCount
  split
  · rfl
  · split <;> rfl

theorem subCount_tail (l : LList V) (n : Nat) : (subCount l n).tail = l.tail := by
  unfold subCount
  split
  · rfl
  · split <;> rfl

theorem filter_ne_of_not_mem (nds : List Nat) (n : Nat) (h : n ∉ nds) :
    nds.filter (fun x => x ≠ n) = nds := by
  refine List.filter_eq_self.mpr ?_
  intro a ha
  simp only [ne_eq, decide_eq_true_eq]
  exact fun heq => h (heq ▸ ha)

theorem dll_cons (h : Heap V) (p : Option Nat) (x : Nat) (xs : List Nat) :
    dll h p (x :: xs)
      ↔ (∃ nd, hfind h x = some nd ∧ nd.prev = p ∧ nd.next = xs.head?) ∧ dll h (some x) xs :=
  Iff.rfl

theorem getLast?_isSome_of_ne_nil : ∀ xs : List Nat, xs ≠ [] → ∃ y, xs.getLast? = some y := by
  intro xs
  induction xs with
  | nil => intro h; exact absurd rfl h
  | cons a t ih =>
    intro _
    cases t with
    | nil => exact ⟨a, rfl⟩
    | cons b t2 =>
      obtain ⟨y, hy⟩ := ih (by simp)
      exact ⟨y, by rw [List.getLast?_cons_cons]; exact hy⟩

theorem dll_getLast (h : Heap V) : ∀ (xs : List Nat) (p : Option Nat) (y : Nat),
    dll h p xs → xs.getLast? = some y → ∃ nd, hfind h y = some nd ∧ nd.next = none := by
  intro xs
  induction xs with
  | nil => intro p y _ hy; simp at hy
  | cons x t ih =>
    intro p y hd hy
    obtain ⟨⟨nd, hnd, hprev, hnext⟩, hrest⟩ := (dll_cons h p x t).mp hd
    cases t with
    | nil =>
      simp at hy
      subst hy
      exact ⟨nd, hnd, by simpa using hnext⟩
    | cons x2 t2 =>
      rw [List.getLast?_cons_cons] at hy
      exact ih (some x) y hrest hy

theorem walkHead_first (h : Heap V) (fuel x : Nat) (nd : LNode V)
    (hnd : hfind h x = some nd) (hp : nd.prev = none) (hfuel : 0 < fuel) :
    walkHead h fuel x = some x := by
  cases fuel with
  | zero => simp at hfuel
  | succ f =>
    unfold walkHead
    simp only [hnd, hp]

theorem walkTail_last (h : Heap V) (fuel y : Nat) (nd : LNode V)
    (hnd : hfind h y = some nd) (hq : nd.next = none) (hfuel : 0 < fuel) :
    walkTail h fuel y = some y := by
  cases fuel with
  | zero => simp at hfuel
  | succ f =>
    unfold walkTail
    simp only [hnd, hq]

theorem chainFrom_dll (h : Heap V) : ∀ (xs : List Nat) (fuel : Nat) (p : Option Nat) (x : Nat),
    dll h p (x :: xs) → (x :: xs).length ≤ fuel →
    chainFrom h fuel x = some (x :: xs) := by
  intro xs
  induction xs with
  | nil =>
    intro fuel p x hd hlen
    cases fuel with
    | zero => simp at hlen
    | succ f =>
      obtain ⟨⟨nd, hnd, hprev, hnext⟩, _⟩ := (dll_cons h p x []).mp hd
      unfold chainFrom
      simp only [hnd]
      simp only [List.head?] at hnext
      simp only [hnext]
  | cons x2 t ih =>
    intro fuel p x hd hlen
    cases fuel with
    | zero => simp at hlen
    | succ f =>
      obtain ⟨⟨nd, hnd, hprev, hnext⟩, hrest⟩ := (dll_cons h p x (x2 :: t)).mp hd
      unfold chainFrom
      simp only [hnd]
      simp only [List.head?] at hnext
      simp only [hnext]
      rw [ih f (some x) x2 hrest (by simpa using Nat.le_of_succ_le_succ hlen)]
      rfl

theorem foldl_addCount_head (ids : List Nat) : ∀ l : LList V,
    (ids.foldl (fun acc n => addCount acc n) l).head = l.head := by
  induction ids with
  | nil => intro l; rfl
  | cons i t ih => intro l; rw [List.foldl_cons, ih, addCount_head]

theorem foldl_addCount_tail (ids : List Nat) : ∀ l : LList V,
    (ids.foldl (fun acc n => addCount acc n) l).tail = l.tail := by
  induction ids with
  | nil => intro l; rfl
  | cons i t ih => intro l; rw [List.foldl_cons, ih, addCount_tail]

theorem head_update_self (l : LList V) (x : Nat) (hx : l.head = some x) :
    ({ l with head := some x } : LList V) = l := by
  cases l
  simp_all

theorem tail_update_self (l : LList V) (y : Nat) (hy : l.tail = some y) :
    ({ l with tail := some y } : LList V) = l := by
  cases l
  simp_all

/-- Claim C1: Delete is claimed to make both cached endpoints absent when the
deleted node was the sole node of the chain.  The code diverges: Go's switch
matches only the first case, so deleting the sole node (which is head and
tail at once) clears the cached head but leaves the cached tail pointing at
the deleted node.  This theorem evaluates the failing input: one node is
appended to the empty list and then deleted; afterwards the head is absent
but the tail still references the deleted node. -/
theorem C1_delete_sole_node_stale_tail :
    ∃ l1 l2 : LList Nat,
      Append { New Nat with heap := [(0, ⟨7, none, none⟩)] } none 0 = some l1 ∧
      Delete l1 0 = some l2 ∧ Head l2 = none ∧ Tail l2 = some 0 := by
  exact ⟨_, _, rfl, rfl, rfl, rfl⟩

/-- Claim C2: after any core-API sequence from the empty list, Head and Tail
are claimed to equal the chain's true boundaries, and head is absent iff
tail is absent iff the chain is empty.  The code diverges on the sequence
Append then Delete of that single node: the chain is empty again, the head
is absent, yet the tail still references the deleted node, so the
absent-iff-absent invariant fails. -/
theorem C2_endpoint_invariant_violated :
    ∃ l1 l2 : LList Nat,
      Append { New Nat with heap := [(0, ⟨7, none, none⟩)] } none 0 = some l1 ∧
      Delete l1 0 = some l2 ∧ ¬(Head l2 = none ↔ Tail l2 = none) := by
  refine ⟨_, _, rfl, rfl, ?_⟩
  decide

/-- Claim C3: after any core-API sequence from the empty list, FindNodes is
claimed to return exactly the chain's nodes holding the value.  The code
diverges on the sequence Append(Tail(), a); Delete(a); Prepend(Tail(), b),
whose anchors are all obtained from the API itself: the stale cached tail
left behind by Delete makes Prepend treat the emptied list as non-empty and
splice node b outside the chain, so afterwards FindNodes(9) returns node b
while the chain is empty (the cached head is absent). -/
theorem C3_index_desync_after_core_sequence :
    ∃ l1 l2 l3 : LList Nat,
      Append { New Nat with heap := [(0, ⟨7, none, none⟩)] } none 0 = some l1 ∧
      Delete l1 0 = some l2 ∧
      Prepend { l2 with heap := (1, ⟨9, none, none⟩) :: l2.heap } (Tail l2) 1 = some l3 ∧
      FindNodes l3 9 = [1] ∧ Head l3 = none := by
  refine ⟨_, _, _, rfl, rfl, rfl, ?_, ?_⟩ <;> decide

/-- Claim C4: Append(anchor, n) immediately followed by Delete(n) is claimed
to restore Head, Tail and the index for every reachable pre-state.  The code
diverges on the empty pre-state (anchor Tail() = nil): the head is restored
to absent but the tail afterwards references the deleted node n instead of
being absent again. -/
theorem C4_append_delete_not_round_trip :
    ∃ l1 l2 : LList Nat,
      Append { New Nat with heap := [(0, ⟨7, none, none⟩)] } none 0 = some l1 ∧
      Delete l1 0 = some l2 ∧
      Head l2 = Head { New Nat with heap := [(0, ⟨7, none, none⟩)] } ∧
      Tail l2 ≠ Tail { New Nat with heap := [(0, ⟨7, none, none⟩)] } := by
  refine ⟨_, _, rfl, rfl, ?_, ?_⟩ <;> decide

/-- Claim C5 counterexample: the freshly constructed empty list's cached
head, tail and index all match the true (empty) chain, yet FixHead and
FixTail do not leave the list unchanged: each dereferences the nil cached
endpoint for the primitive's boundary walk and fails instead of producing
the unchanged list. -/
theorem C5_fix_on_synced_empty_fails :
    (New Nat).head = none ∧ (New Nat).tail = none ∧ (New Nat).nodes = [] ∧
    FixHead (New Nat) = none ∧ FixTail (New Nat) = none :=
  ⟨rfl, rfl, rfl, rfl, rfl⟩

/-- Claim C5 as amended: on a non-empty list whose cached head and tail are
the true chain boundaries and whose FindNodes observations coincide with the
index rebuilt from the chain, FixHead, FixTail and FixCounts produce no
observable change.  (The original claim fails on the synced empty list,
where FixHead and FixTail dereference a nil endpoint.) -/
theorem C5_fix_idempotent_nonempty (l : LList V) (xs : List Nat)
    (hchain : dll l.heap none xs)
    (hne : xs ≠ [])
    (hh : l.head = xs.head?)
    (ht : l.tail = xs.getLast?)
    (hfuel : xs.length ≤ l.heap.length)
    (hidx : ∀ v, FindNodes l v
      = FindNodes (xs.foldl (fun acc n => addCount acc n) { l with nodes := [] }) v) :
    FixHead l = some l ∧ FixTail l = some l ∧
    (∃ l2, FixCounts l = some l2 ∧ Head l2 = Head l ∧ Tail l2 = Tail l ∧
      ∀ v, FindNodes l2 v = FindNodes l v) := by
  obtain ⟨x, rest, rfl⟩ : ∃ x rest, xs = x :: rest := by
    cases xs with
    | nil => exact absurd rfl hne
    | cons a t => exact ⟨a, t, rfl⟩
  obtain ⟨⟨nd, hnd, hprev, hnext⟩, hrest⟩ := (dll_cons l.heap none x rest).mp hchain
  have hh2 : l.head = some x := by simpa using hh
  have hpos : 0 < l.heap.length := lt_of_lt_of_le (by simp) hfuel
  refine ⟨?_, ?_, ?_⟩
  · unfold FixHead
    simp only [hh2]
    rw [walkHead_first l.heap l.heap.length x nd hnd hprev hpos]
    rw [head_update_self l x hh2]
  · obtain ⟨y, hy⟩ := getLast?_isSome_of_ne_nil (x :: rest) hne
    have ht2 : l.tail = some y := by rw [ht, hy]
    obtain ⟨ndy, hndy, hqy⟩ := dll_getLast l.heap (x :: rest) none y hchain hy
    unfold FixTail
    simp only [ht2]
    rw [walkTail_last l.heap l.heap.length y ndy hndy hqy hpos]
    rw [tail_update_self l y ht2]
  · unfold FixCounts
    simp only [hh2]
    rw [chainFrom_dll l.heap rest l.heap.length none x hchain hfuel]
    refine ⟨_, rfl, ?_, ?_, ?_⟩
    · unfold Head
      rw [foldl_addCount_head]
      simpa using hh2.symm
    · unfold Tail
      rw [foldl_addCount_tail]
    · intro v
      rw [← hh2]
      exact (hidx v).symm

theorem C5_fix_idempotent_nonempty_witness :
    dll ([(0, ⟨5, none, none⟩)] : Heap Nat) none [0] ∧
    ([0] : List Nat) ≠ [] ∧
    (⟨some 0, some 0, [(5, [0])], [(0, ⟨5, none, none⟩)]⟩ : LList Nat).head = [0].head? ∧
    (⟨some 0, some 0, [(5, [0])], [(0, ⟨5, none, none⟩)]⟩ : LList Nat).tail = [0].getLast? ∧
    ([0] : List Nat).length
      ≤ (⟨some 0, some 0, [(5, [0])], [(0, ⟨5, none, none⟩)]⟩ : LList Nat).heap.length ∧
    (∀ v, FindNodes (⟨some 0, some 0, [(5, [0])], [(0, ⟨5, none, none⟩)]⟩ : LList Nat) v
      = FindNodes ([0].foldl (fun acc n => addCount acc n)
          { (⟨some 0, some 0, [(5, [0])], [(0, ⟨5, none, none⟩)]⟩ : LList Nat)
            with nodes := [] }) v) ∧
    (FixHead (⟨some 0, some 0, [(5, [0])], [(0, ⟨5, none, none⟩)]⟩ : LList Nat)
        = some (⟨some 0, some 0, [(5, [0])], [(0, ⟨5, none, none⟩)]⟩ : LList Nat) ∧
      FixTail (⟨some 0, some 0, [(5, [0])], [(0, ⟨5, none, none⟩)]⟩ : LList Nat)
        = some (⟨some 0, some 0, [(5, [0])], [(0, ⟨5, none, none⟩)]⟩ : LList Nat) ∧
      (∃ l2, FixCounts (⟨some 0, some 0, [(5, [0])], [(0, ⟨5, none, none⟩)]⟩ : LList Nat)
          = some l2 ∧
        Head l2 = Head (⟨some 0, some 0, [(5, [0])], [(0, ⟨5, none, none⟩)]⟩ : LList Nat) ∧
        Tail l2 = Tail (⟨some 0, some 0, [(5, [0])], [(0, ⟨5, none, none⟩)]⟩ : LList Nat) ∧
        ∀ v, FindNodes l2 v
          = FindNodes (⟨some 0, some 0, [(5, [0])], [(0, ⟨5, none, none⟩)]⟩ : LList Nat) v)) := by
  refine ⟨⟨⟨⟨5, none, none⟩, rfl, rfl, rfl⟩, trivial⟩, by simp, rfl, rfl, by simp, fun v => rfl, ?_⟩
  exact C5_fix_idempotent_nonempty _ [0] ⟨⟨⟨5, none, none⟩, rfl, rfl, rfl⟩, trivial⟩
    (by simp) rfl rfl (by simp) (fun v => rfl)

/-- Claim C7: deleting a node that is not currently registered in the list is
a safe no-op on the observable state: every FindNodes observation is
unchanged, and the cached head and tail are unchanged whenever the node is
not the cached head or tail reference. -/
theorem C7_delete_unregistered_noop (l : LList V) (n : Nat) (nd : LNode V)
    (halloc : hfind l.heap n = some nd)
    (hunreg : ∀ v, n ∉ FindNodes l v) :
    ∃ l2, Delete l n = some l2 ∧
      (∀ v, FindNodes l2 v = FindNodes l v) ∧
      (l.head ≠ some n → l.tail ≠ some n → Head l2 = Head l ∧ Tail l2 = Tail l) := by
  have hval : valOf (lnDelete l.heap n) n = some nd.value := by
    rw [valOf_lnDelete]
    unfold valOf
    rw [halloc]
    rfl
  obtain ⟨nd2, hnd2, hvnd2⟩ :
      ∃ nd2, hfind (lnDelete l.heap n) n = some nd2 ∧ nd2.value = nd.value := by
    unfold valOf at hval
    cases hh : hfind (lnDelete l.heap n) n with
    | none => rw [hh] at hval; simp at hval
    | some x => rw [hh] at hval; simp at hval; exact ⟨x, rfl, hval⟩
  have key : ∀ (hd tl : Option Nat) (v : V),
      FindNodes (subCount ⟨hd, tl, l.nodes, lnDelete l.heap n⟩ n) v = FindNodes l v := by
    intro hd tl v
    unfold subCount
    simp only [hnd2]
    split
    · rfl
    next nds hbk =>
      have hnin : n ∉ nds := by
        have hm := hunreg nd2.value
        unfold FindNodes at hm
        rw [hbk] at hm
        exact hm
      rw [filter_ne_of_not_mem nds n hnin]
      by_cases hv : v = nd2.value
      · subst hv
        unfold FindNodes
        simp only [ifind_iset_self, hbk]
      · unfold FindNodes
        simp only [ifind_iset_ne _ _ _ _ hv]
  unfold Delete
  rw [halloc]
  split_ifs with h1 h2
  · exact ⟨_, rfl, fun v => key nd.next l.tail v,
      fun hh _ => absurd h1 hh⟩
  · exact ⟨_, rfl, fun v => key l.head nd.prev v,
      fun _ ht => absurd h2 ht⟩
  · exact ⟨_, rfl, fun v => key l.head l.tail v,
      fun _ _ => ⟨subCount_head _ _, subCount_tail _ _⟩⟩

/-- Witness for claim C7 at a concrete list: node 2 is allocated but not
registered in any bucket and is neither the cached head nor tail, and
Delete(2) leaves every observation unchanged. -/
theorem C7_delete_unregistered_noop_witness :
    (hfind ([(1, ⟨5, none, none⟩), (2, ⟨5, none, none⟩)] : Heap Nat) 2
      = some ⟨5, none, none⟩) ∧
    (∀ v, 2 ∉ FindNodes
      (⟨some 1, some 1, [(5, [1])],
        [(1, ⟨5, none, none⟩), (2, ⟨5, none, none⟩)]⟩ : LList Nat) v) ∧
    (∃ l2, Delete
        (⟨some 1, some 1, [(5, [1])],
          [(1, ⟨5, none, none⟩), (2, ⟨5, none, none⟩)]⟩ : LList Nat) 2 = some l2 ∧
      (∀ v, FindNodes l2 v = FindNodes
        (⟨some 1, some 1, [(5, [1])],
          [(1, ⟨5, none, none⟩), (2, ⟨5, none, none⟩)]⟩ : LList Nat) v) ∧
      ((⟨some 1, some 1, [(5, [1])],
          [(1, ⟨5, none, none⟩), (2, ⟨5, none, none⟩)]⟩ : LList Nat).head ≠ some 2 →
        (⟨some 1, some 1, [(5, [1])],
          [(1, ⟨5, none, none⟩), (2, ⟨5, none, none⟩)]⟩ : LList Nat).tail ≠ some 2 →
        Head l2 = Head (⟨some 1, some 1, [(5, [1])],
          [(1, ⟨5, none, none⟩), (2, ⟨5, none, none⟩)]⟩ : LList Nat) ∧
        Tail l2 = Tail (⟨some 1, some 1, [(5, [1])],
          [(1, ⟨5, none, none⟩), (2, ⟨5, none, none⟩)]⟩ : LList Nat))) := by
  have hunreg : ∀ v, 2 ∉ FindNodes
      (⟨some 1, some 1, [(5, [1])],
        [(1, ⟨5, none, none⟩), (2, ⟨5, none, none⟩)]⟩ : LList Nat) v := by
    intro v
    unfold FindNodes
    by_cases hv : (5 : Nat) = v
    · subst hv
      simp [ifind]
    · simp [ifind, hv]
  exact ⟨by decide, hunreg,
    C7_delete_unregistered_noop _ 2 ⟨5, none, none⟩ (by decide) hunreg⟩

/-- Claim C9: FixHead and FixTail are unsafe on an empty list, invoking the
primitive boundary walk on a nil reference (modelled as failure), while
FixCounts guards the empty case and returns the list unchanged. -/
theorem C9_fix_empty_guard (l : LList V) (hh : l.head = none) (ht : l.tail = none) :
    FixHead l = none ∧ FixTail l = none ∧ FixCounts l = some l := by
  unfold FixHead FixTail FixCounts
  rw [hh, ht]
  exact ⟨rfl, rfl, rfl⟩

theorem C9_fix_empty_guard_witness :
    (New Nat).head = none ∧ (New Nat).tail = none ∧
      (FixHead (New Nat) = none ∧ FixTail (New Nat) = none ∧
        FixCounts (New Nat) = some (New Nat)) :=
  ⟨rfl, rfl, C9_fix_empty_guard (New Nat) rfl rfl⟩

/-- Claim C8: on a registered node, SetValue to a different value removes the
node from its old value's bucket, registers it under the new value, leaves
the cached head and tail untouched, and leaves every node's chain adjacency
untouched. -/
theorem C8_setvalue_moves_bucket (l : LList V) (n : Nat) (nd : LNode V) (w : V)
    (halloc : hfind l.heap n = some nd)
    (hreg : n ∈ FindNodes l nd.value)
    (hne : w ≠ nd.value) :
    ∃ l2, SetValue l n w = some l2 ∧
      n ∉ FindNodes l2 nd.value ∧
      n ∈ FindNodes l2 w ∧
      Head l2 = Head l ∧ Tail l2 = Tail l ∧
      (∀ m, linksOf l2.heap m = linksOf l.heap m) := by
  obtain ⟨nds, hbk, hn⟩ : ∃ nds, ifind l.nodes nd.value = some nds ∧ n ∈ nds := by
    unfold FindNodes at hreg
    cases hbk : ifind l.nodes nd.value with
    | none => rw [hbk] at hreg; exact absurd hreg (List.not_mem_nil n)
    | some nds => rw [hbk] at hreg; exact ⟨nds, rfl, hreg⟩
  have hsub : subCount l n
      = { l with nodes := iset l.nodes nd.value (nds.filter (fun x => x ≠ n)) } := by
    simp only [subCount, halloc, hbk]
  have hfind2 : hfind (hupd l.heap n (fun x => { x with value := w })) n
      = some { nd with value := w } := by
    rw [hfind_hupd]
    simp [halloc]
  have hSV : SetValue l n w = some
      { head := l.head, tail := l.tail,
        nodes := iset (iset l.nodes nd.value (nds.filter (fun x => x ≠ n))) w
          (((ifind (iset l.nodes nd.value (nds.filter (fun x => x ≠ n))) w).getD []) ++ [n]),
        heap := hupd l.heap n (fun x => { x with value := w }) } := by
    simp only [SetValue, halloc, hsub, addCount, hfind2]
  refine ⟨_, hSV, ?_, ?_, rfl, rfl, ?_⟩
  · unfold FindNodes
    simp only [ifind_iset_ne _ _ _ _ (Ne.symm hne), ifind_iset_self]
    simp [List.mem_filter]
  · unfold FindNodes
    simp only [ifind_iset_self]
    simp
  · intro m
    exact linksOf_hupd_value l.heap n w m

theorem C8_setvalue_moves_bucket_witness :
    (hfind ([(1, ⟨5, none, none⟩)] : Heap Nat) 1 = some ⟨5, none, none⟩) ∧
    (1 ∈ FindNodes (⟨some 1, some 1, [(5, [1])], [(1, ⟨5, none, none⟩)]⟩ : LList Nat)
      (LNode.value ⟨5, none, none⟩)) ∧
    ((9 : Nat) ≠ LNode.value ⟨5, none, none⟩) ∧
    (∃ l2, SetValue (⟨some 1, some 1, [(5, [1])], [(1, ⟨5, none, none⟩)]⟩ : LList Nat) 1 9
        = some l2 ∧
      1 ∉ FindNodes l2 (LNode.value ⟨5, none, none⟩) ∧
      1 ∈ FindNodes l2 9 ∧
      Head l2 = Head (⟨some 1, some 1, [(5, [1])], [(1, ⟨5, none, none⟩)]⟩ : LList Nat) ∧
      Tail l2 = Tail (⟨some 1, some 1, [(5, [1])], [(1, ⟨5, none, none⟩)]⟩ : LList Nat) ∧
      (∀ m, linksOf l2.heap m
        = linksOf (⟨some 1, some 1, [(5, [1])], [(1, ⟨5, none, none⟩)]⟩ : LList Nat).heap m)) :=
  ⟨by decide, by decide, by decide,
    C8_setvalue_moves_bucket _ 1 ⟨5, none, none⟩ 9 (by decide) (by decide) (by decide)⟩

/-- Claim C10: SetValue with the value the node already holds keeps the
membership of that value's bucket but moves the node to the bucket's last
position: the result is the old bucket without the node, with the node
appended. -/
theorem C10_setvalue_same_value_moves_to_last (l : LList V) (n : Nat) (nd : LNode V)
    (halloc : hfind l.heap n = some nd)
    (hreg : n ∈ FindNodes l nd.value) :
    ∃ l2, SetValue l n nd.value = some l2 ∧
      FindNodes l2 nd.value = (FindNodes l nd.value).filter (fun x => x ≠ n) ++ [n] ∧
      (∀ x, x ∈ FindNodes l2 nd.value ↔ x ∈ FindNodes l nd.value) ∧
      (FindNodes l2 nd.value).getLast? = some n := by
  obtain ⟨nds, hbk, hn⟩ : ∃ nds, ifind l.nodes nd.value = some nds ∧ n ∈ nds := by
    unfold FindNodes at hreg
    cases hbk : ifind l.nodes nd.value with
    | none => rw [hbk] at hreg; exact absurd hreg (List.not_mem_nil n)
    | some nds => rw [hbk] at hreg; exact ⟨nds, rfl, hreg⟩
  have hsub : subCount l n
      = { l with nodes := iset l.nodes nd.value (nds.filter (fun x => x ≠ n)) } := by
    simp only [subCount, halloc, hbk]
  have hfind2 : hfind (hupd l.heap n (fun x => { x with value := nd.value })) n
      = some { nd with value := nd.value } := by
    rw [hfind_hupd]
    simp [halloc]
  have hSV : SetValue l n nd.value = some
      { head := l.head, tail := l.tail,
        nodes := iset (iset l.nodes nd.value (nds.filter (fun x => x ≠ n))) nd.value
          ((nds.filter (fun x => x ≠ n)) ++ [n]),
        heap := hupd l.heap n (fun x => { x with value := nd.value }) } := by
    simp only [SetValue, halloc, hsub, addCount, hfind2, ifind_iset_self, Option.getD_some]
  refine ⟨_, hSV, ?_, ?_, ?_⟩
  · unfold FindNodes
    simp only [ifind_iset_self, hbk]
  · intro x
    unfold FindNodes
    simp only [ifind_iset_self]
    rw [hbk]
    simp only [List.mem_append, List.mem_filter, List.mem_singleton]
    constructor
    · rintro (⟨hx, _⟩ | hx)
      · exact hx
      · exact hx ▸ hn
    · intro hx
      by_cases hxn : x = n
      · exact Or.inr hxn
      · exact Or.inl ⟨hx, by simpa using hxn⟩
  · unfold FindNodes
    simp only [ifind_iset_self]
    rw [List.getLast?_concat]

theorem C10_setvalue_same_value_moves_to_last_witness :
    (hfind ([(1, ⟨5, none, some 2⟩), (2, ⟨5, some 1, none⟩)] : Heap Nat) 2
      = some ⟨5, some 1, none⟩) ∧
    (2 ∈ FindNodes
      (⟨some 1, some 2, [(5, [2, 1])],
        [(1, ⟨5, none, some 2⟩), (2, ⟨5, some 1, none⟩)]⟩ : LList Nat)
      (LNode.value ⟨5, some 1, none⟩)) ∧
    (∃ l2, SetValue
        (⟨some 1, some 2, [(5, [2, 1])],
          [(1, ⟨5, none, some 2⟩), (2, ⟨5, some 1, none⟩)]⟩ : LList Nat) 2
        (LNode.value ⟨5, some 1, none⟩) = some l2 ∧
      FindNodes l2 (LNode.value ⟨5, some 1, none⟩)
        = (FindNodes
            (⟨some 1, some 2, [(5, [2, 1])],
              [(1, ⟨5, none, some 2⟩), (2, ⟨5, some 1, none⟩)]⟩ : LList Nat)
            (LNode.value ⟨5, some 1, none⟩)).filter (fun x => x ≠ 2) ++ [2] ∧
      (∀ x, x ∈ FindNodes l2 (LNode.value ⟨5, some 1, none⟩) ↔
        x ∈ FindNodes
          (⟨some 1, some 2, [(5, [2, 1])],
            [(1, ⟨5, none, some 2⟩), (2, ⟨5, some 1, none⟩)]⟩ : LList Nat)
          (LNode.value ⟨5, some 1, none⟩)) ∧
      (FindNodes l2 (LNode.value ⟨5, some 1, none⟩)).getLast? = some 2) :=
  ⟨by decide, by decide,
    C10_setvalue_same_value_moves_to_last _ 2 ⟨5, some 1, none⟩ (by decide) (by decide)⟩

end Llist
